import Mathlib

/-!
Verification of the Express-Server `handleGet.js` handler sources.

The JavaScript source is shallowly embedded:
* JS strings are `List Char`; JS numbers used as counters are `Nat`
  (`String(counter)` is `Nat.repr`).
* A JS object in iteration order is an association `List (key × value)`;
  `for (const k in obj)` walks that list.  For the objects built here the
  keys are integer-like strings, which JS iterates in ascending numeric
  order; the association lists are taken in that iteration order.
* A thrown JS exception is the `JsOutcome.thrown` constructor; indexing a
  `null` regex match result throws a `TypeError`.
-/

namespace HW

/-- A single ink trace: a document-local string identifier plus payload data
(the point coordinates), which the handler never inspects.  Mirrors the trace
objects spread by `assignUniqueTraceIDs` (`{ ...trace, id: ... }`). -/
structure Trace where
  id : String
  payload : String
deriving DecidableEq, Repr

/-- A trace group as consumed by `updateTraceDataRefs`: a list of
`traceDataRefs` (trace identifiers) plus payload the handler never touches. -/
structure TraceGroup where
  traceDataRefs : List String
  payload : String
deriving DecidableEq, Repr

/-- A trace group after `updateTraceDataRefs`: each reference was replaced by
`traceIdChanges[ref]`, which in JS is `undefined` (here `none`) when the key
is absent from the map. -/
structure TraceGroupR where
  traceDataRefs : List (Option String)
  payload : String
deriving DecidableEq, Repr

/-- The per-document data (`inkmlData`): the ordered trace list and the
trace-group object (keyed association list in iteration order). -/
structure InkmlData where
  traces : List Trace
  traceGroups : List (String × TraceGroup)
deriving DecidableEq, Repr

/-- A document after reference rewriting and renumbering. -/
structure InkmlDataR where
  traces : List Trace
  traceGroups : List (String × TraceGroupR)
deriving DecidableEq, Repr

/-- `outFileAllInfo`: the object mapping out-file names to their document
data, as an association list in JS iteration order (ascending numeric key
order for the integer-like file keys). -/
def OutFileAllInfo : Type := List (String × InkmlData)

/-- `assignUniqueTraceIDs(traces, traceIdCounter)`: renumber every trace to
`String(traceIdCounter)`, incrementing the counter after each assignment,
and return the updated traces together with the final counter. -/
def assignUniqueTraceIDs (traces : List Trace) (traceIdCounter : Nat) :
    List Trace × Nat :=
  match traces with
  | [] => ([], traceIdCounter)
  | t :: ts =>
    let rest := assignUniqueTraceIDs ts (traceIdCounter + 1)
    ({ t with id := Nat.repr traceIdCounter } :: rest.1, rest.2)

/-- Lookup in a JS object built by repeated assignment `acc[k] = v`: a later
assignment to the same key overwrites an earlier one, so the last binding in
the association list wins; a missing key reads as `undefined` (`none`). -/
def jsLookup (m : List (String × String)) (k : String) : Option String :=
  (m.reverse.find? (fun p => p.1 = k)).map (fun p => p.2)

/-- The `traceIdChanges` map built by
`updatedTraces.reduce((acc, trace, i) => { acc[inkmlData.traces[i].id] = trace.id; ... })`:
the i-th original trace id is bound to the i-th updated trace id. -/
def buildTraceIdChanges (oldTraces newTraces : List Trace) :
    List (String × String) :=
  List.zipWith (fun o n => (o.id, n.id)) oldTraces newTraces

/-- `updateTraceDataRefs(traceGroups, traceIdChanges)`: keep every group key
and payload, replacing each entry of `traceDataRefs` by
`traceIdChanges[ref]` (`undefined`/`none` when the map has no such key). -/
def updateTraceDataRefs (traceGroups : List (String × TraceGroup))
    (traceIdChanges : List (String × String)) : List (String × TraceGroupR) :=
  traceGroups.map (fun kg =>
    (kg.1, { traceDataRefs := kg.2.traceDataRefs.map (jsLookup traceIdChanges),
             payload := kg.2.payload }))

/-- `assignUniqueTraceGroupIDs(traceGroups, groupIdCounter)`: rebuild the
group object keyed by `String(groupIdCounter)` in iteration order,
incrementing the counter per group, values copied unchanged. -/
def assignUniqueTraceGroupIDs (traceGroups : List (String × TraceGroupR))
    (groupIdCounter : Nat) : List (String × TraceGroupR) × Nat :=
  match traceGroups with
  | [] => ([], groupIdCounter)
  | g :: gs =>
    let rest := assignUniqueTraceGroupIDs gs (groupIdCounter + 1)
    ((Nat.repr groupIdCounter, g.2) :: rest.1, rest.2)

/-- The body of the `for (const outFile in modifiedInfo)` loop of
`modifyIDsToUnique`, threading the two counters across documents. -/
def modifyGo (info : List (String × InkmlData)) (traceIdCounter groupIdCounter : Nat) :
    List (String × InkmlDataR) :=
  match info with
  | [] => []
  | d :: rest =>
    let assigned := assignUniqueTraceIDs d.2.traces traceIdCounter
    let traceIdChanges := buildTraceIdChanges d.2.traces assigned.1
    let updatedGroups := updateTraceDataRefs d.2.traceGroups traceIdChanges
    let finalGroups := assignUniqueTraceGroupIDs updatedGroups groupIdCounter
    (d.1, { traces := assigned.1, traceGroups := finalGroups.1 }) ::
      modifyGo rest assigned.2 finalGroups.2

/-- `modifyIDsToUnique(outFileAllInfo)`: deep-copy the input (pure here) and
renumber traces and groups of every document with the two global counters,
both starting at 1. -/
def modifyIDsToUnique (info : List (String × InkmlData)) :
    List (String × InkmlDataR) :=
  modifyGo info 1 1

/-- All traces of the merged output, in document iteration order. -/
def mergedTraces (out : List (String × InkmlDataR)) : List Trace :=
  match out with
  | [] => []
  | d :: rest => d.2.traces ++ mergedTraces rest

/-- All trace identifiers of the merged output. -/
def mergedTraceIds (out : List (String × InkmlDataR)) : List String :=
  (mergedTraces out).map Trace.id

/-- All trace groups of the merged output, in document iteration order. -/
def mergedGroups (out : List (String × InkmlDataR)) :
    List (String × TraceGroupR) :=
  match out with
  | [] => []
  | d :: rest => d.2.traceGroups ++ mergedGroups rest

/-- All group identifiers (object keys) of the merged output. -/
def mergedGroupIds (out : List (String × InkmlDataR)) : List String :=
  (mergedGroups out).map (fun kg => kg.1)

/-- Total trace count of a batch. -/
def totalTraceCount (info : List (String × InkmlData)) : Nat :=
  (info.map (fun d => d.2.traces.length)).sum

/-- Total group count of a batch. -/
def totalGroupCount (info : List (String × InkmlData)) : Nat :=
  (info.map (fun d => d.2.traceGroups.length)).sum

/-- The shape of a batch: per document, its trace count and group count, in
iteration order.  The identifiers assigned by the unifier depend only on
this. -/
def docShape (info : List (String × InkmlData)) : List (Nat × Nat) :=
  info.map (fun d => (d.2.traces.length, d.2.traceGroups.length))

/-- Spec-side characterization (from the spec's order-preservation wording):
per document, the block of consecutive counter values its items receive,
rendered as decimal strings. -/
def specConsecutiveIdBlocks (c : Nat) : List Nat → List (List String)
  | [] => []
  | n :: ns => (List.range' c n).map Nat.repr :: specConsecutiveIdBlocks (c + n) ns

/-! ### Injectivity of the decimal rendering `Nat.repr` -/

/-- The decimal digit characters of `n`, most significant first; the
recursion mirrors `Nat.toDigitsCore` at base 10 with the fuel removed. -/
def natDigits (n : Nat) : List Char :=
  if h : n < 10 then [Nat.digitChar n]
  else natDigits (n / 10) ++ [Nat.digitChar (n % 10)]
decreasing_by exact Nat.div_lt_self (by omega) (by omega)

/-- Numeric value of a digit-character list, used only to invert
`natDigits`. -/
def digitsVal (l : List Char) : Nat :=
  l.foldl (fun a c => 10 * a + (c.toNat - 48)) 0

/-! ### String scanning primitives shared by the regex models

JS strings are embedded as `List Char`.  The three regex literals of the
handler are modelled by dedicated matchers below, following JS semantics:
leftmost match, alternatives tried left to right, greedy `\s*`/`3?` with
backtracking, lazy `.*?`/`.+?` extending one character at a time, and `.`
not matching a line terminator. -/

/-- Whitespace class of the JS `\s` escape and of `String.prototype.trim`
(restricted to the characters that can occur here). -/
def isWsChar (c : Char) : Bool :=
  c = ' ' || c = '\t' || c = '\n' || c = '\r' || c = '\x0b' || c = '\x0c'

/-- Character class of the JS `.` pattern: anything but a line terminator. -/
def isDotChar (c : Char) : Bool :=
  !(c = '\n' || c = '\r' || c = '\u2028' || c = '\u2029')

/-- `String.prototype.trim()`: strip whitespace from both ends. -/
def trimChars (s : List Char) : List Char :=
  ((s.dropWhile isWsChar).reverse.dropWhile isWsChar).reverse

/-- `str.replace(/3$/, "")`: drop a single trailing digit `3`. -/
def stripTrailing3 (s : List Char) : List Char :=
  if s.getLast? = some '3' then s.dropLast else s

/-- `some rest` when `p` is a prefix of `s`, with `rest` the remainder. -/
def stripPre (p s : List Char) : Option (List Char) :=
  if p.isPrefixOf s then some (s.drop p.length) else none

/-- Whether `p` occurs as a contiguous substring of `s`. -/
def containsSub (p : List Char) : List Char → Bool
  | [] => p.isPrefixOf []
  | c :: rest => p.isPrefixOf (c :: rest) || containsSub p rest

/-- Scan for the leftmost occurrence of `p` in `s` and return the remainder
after it (the regex-engine search for a literal). -/
def findAfter (p : List Char) : List Char → Option (List Char)
  | [] => if p.isPrefixOf ([] : List Char) then some [] else none
  | c :: rest =>
    if p.isPrefixOf (c :: rest) then some ((c :: rest).drop p.length)
    else findAfter p rest

/-- A literal rewrite rule: first pattern character, rest of the pattern,
replacement.  Storing the head separately keeps every pattern non-empty. -/
def ScanRule : Type := Char × List Char × List Char

/-- First rule (in the alternation order of the regex) whose pattern matches
at the current position. -/
def findRule (rules : List ScanRule) (c : Char) (rest : List Char) :
    Option (List Char × List Char) :=
  match rules with
  | [] => none
  | r :: rs =>
    if c = r.1 && r.2.1.isPrefixOf rest then some (r.2.1, r.2.2)
    else findRule rs c rest

/-- A global (`/g`) literal replace: walk left to right, rewrite the first
rule that matches, continue after the replaced text (the replacement itself
is not rescanned), otherwise advance one character.  The recursion is
driven by a fuel counter so the definition is structural; each step
consumes at least one input character, so `s.length` fuel is enough. -/
def scanRulesFuel (rules : List ScanRule) : Nat → List Char → List Char
  | 0, s => s
  | _ + 1, [] => []
  | fuel + 1, c :: rest =>
    match findRule rules c rest with
    | some pr => pr.2 ++ scanRulesFuel rules fuel (rest.drop pr.1.length)
    | none => c :: scanRulesFuel rules fuel rest

/-- The global replace at adequate fuel. -/
def scanRules (rules : List ScanRule) (s : List Char) : List Char :=
  scanRulesFuel rules s.length s

/-- `latexExpression.replace(/ COMMA /g, ", ")` (handler line 191). -/
def commaRules : List ScanRule := [(' ', "COMMA ".toList, ", ".toList)]

/-- `.replace(/=_/g, "=")` — cleanup pass (a), handler line 217. -/
def eqUnderscoreRules : List ScanRule := [('=', "_".toList, "=".toList)]

/-- `.replace(/(_=|_\\lt|_\\gt|_\\leq|_\\geq)/g, (m) => m.slice(1))` —
cleanup pass (c), handler line 219: drop the underscore in front of a
comparison operator. -/
def underscoreOpRules : List ScanRule :=
  [('_', "=".toList, "=".toList),
   ('_', "\\lt".toList, "\\lt".toList),
   ('_', "\\gt".toList, "\\gt".toList),
   ('_', "\\leq".toList, "\\leq".toList),
   ('_', "\\geq".toList, "\\geq".toList)]

/-- The ` COMMA ` token replacement applied to each extracted expression. -/
def commaFix (s : List Char) : List Char := scanRules commaRules s

/-! ### Cleanup pass (b): `.replace(/=\{\\{(.+?)\\}\}/g, "={$1}")`

The pattern is the literal `={\{`, a lazy non-empty group of `.` characters,
then the literal `\}}`. -/

/-- Search for the end of the lazy group: at each step first try to close
with the literal `\}}` (lazy `.+?` prefers the shortest group, which must be
non-empty), otherwise extend the group by one `.`-matchable character. -/
def braceBody (acc : List Char) : List Char → Option (List Char × List Char)
  | [] => none
  | c :: rest =>
    if !acc.isEmpty && c = '\\' && "\x7d\x7d".toList.isPrefixOf rest then
      some (acc.reverse, rest.drop 2)
    else if isDotChar c then braceBody (c :: acc) rest else none

/-- Cleanup pass (b) itself: global scan rewriting every match of
`=\{\\{(.+?)\\}\}` to `={$1}`.  Again fuel-driven and structural; every
step consumes at least one input character (a match consumes at least
seven), so `s.length` fuel suffices. -/
def collapseFuel : Nat → List Char → List Char
  | 0, s => s
  | _ + 1, [] => []
  | fuel + 1, c :: rest =>
    if c = '=' && "\x7b\\\x7b".toList.isPrefixOf rest then
      match braceBody [] (rest.drop 3) with
      | some pr => "=\x7b".toList ++ pr.1 ++ ['\x7d'] ++ collapseFuel fuel pr.2
      | none => c :: collapseFuel fuel rest
    else c :: collapseFuel fuel rest

/-- The doubled-brace collapse at adequate fuel. -/
def collapseExtraBraces (s : List Char) : List Char :=
  collapseFuel s.length s

/-! ### The hint-correction regex (handler lines 195-212)

`/(=|\\lt|\\gt|\\leq|\\geq)_{((\\sum\s*(.*?))|(\\{(.+?)\\})3?)}/`

Group 1 is the operator, group 4 the lazy payload of the summation form,
group 6 the lazy payload of the explicit set form.  The code uses exactly
groups 1, 4 and 6. -/

/-- The operator alternation `(=|\\lt|\\gt|\\leq|\\geq)`, in order.  The
alternatives are mutually prefix-free, so at any position at most one can
match and no backtracking across them is possible. -/
def operatorAlternatives : List (List Char) :=
  ["=".toList, "\\lt".toList, "\\gt".toList, "\\leq".toList, "\\geq".toList]

/-- Match one operator alternative at the head of `s`. -/
def matchOperator (s : List Char) : Option (List Char × List Char) :=
  match operatorAlternatives.find? (fun p => p.isPrefixOf s) with
  | some p => some (p, s.drop p.length)
  | none => none

/-- Lazy `(.*?)` followed by the closing `}` of the subscript: the group is
the (possibly empty) run of `.`-matchable characters up to the first `}`;
fails if no `}` is reachable. -/
def firstCloseBrace : List Char → Option (List Char × List Char)
  | [] => none
  | c :: rest =>
    if c = '\x7d' then some ([], rest)
    else if isDotChar c then
      match firstCloseBrace rest with
      | some pr => some (c :: pr.1, pr.2)
      | none => none
    else none

/-- Greedy `\s*` with backtracking, then `(.*?)}`: consume a maximal run of
whitespace first, giving back one character at a time if the lazy group
cannot reach a `}`. -/
def alt1Tail : List Char → Option (List Char × List Char)
  | [] => none
  | c :: rest =>
    if isWsChar c then
      match alt1Tail rest with
      | some pr => some pr
      | none => firstCloseBrace (c :: rest)
    else firstCloseBrace (c :: rest)

/-- Lazy `(.+?)` of the set form followed by `\}`, the greedy optional `3`,
and the closing `}`: at each position first try to close (preferring to
consume a `3`), else extend the non-empty group by one `.`-matchable
character. -/
def alt2From (acc : List Char) : List Char → Option (List Char × List Char)
  | [] => none
  | c :: rest =>
    if !acc.isEmpty && c = '\\' && "\x7d3\x7d".toList.isPrefixOf rest then
      some (acc.reverse, rest.drop 3)
    else if !acc.isEmpty && c = '\\' && "\x7d\x7d".toList.isPrefixOf rest then
      some (acc.reverse, rest.drop 2)
    else if isDotChar c then alt2From (c :: acc) rest else none

/-- A successful match of the hint regex, recording which alternative of
group 2 matched and the payload group that is defined for it (group 4 for
the summation form, group 6 for the set form). -/
inductive PatMatch where
  | sumForm (op g4 : List Char) : PatMatch
  | setForm (op g6 : List Char) : PatMatch
deriving DecidableEq, Repr

/-- Try to match the whole hint regex at the start of `s`.  The two
alternatives of group 2 start with `\s` resp. `\{` after the common `_{`,
so they are mutually exclusive and tried in regex order. -/
def matchAt (s : List Char) : Option PatMatch :=
  match matchOperator s with
  | none => none
  | some opr =>
    match stripPre "_\x7b".toList opr.2 with
    | none => none
    | some r2 =>
      match stripPre "\\sum".toList r2 with
      | some r3 =>
        match alt1Tail r3 with
        | some pr => some (.sumForm opr.1 pr.1)
        | none => none
      | none =>
        match stripPre "\\\x7b".toList r2 with
        | some r3 =>
          match alt2From [] r3 with
          | some pr => some (.setForm opr.1 pr.1)
          | none => none
        | none => none

/-- `regex.exec(result)`: leftmost match — try every start position from the
left and return the first success. -/
def execPattern : List Char → Option PatMatch
  | [] => none
  | c :: rest =>
    match matchAt (c :: rest) with
    | some m => some m
    | none => execPattern rest

/-- One iteration of the hint-correction loop body (handler lines 202-211):
on a match, the whole result is replaced by
``` `${operator}\\{${hint}\\}` ``` where `hint` is group 6 trimmed if
defined, else group 4 with a trailing `3` stripped, trimmed; with no match
the result is left alone (`continue`).  JS tests `match[6]` for truthiness,
but group 6 (`(.+?)`) is non-empty whenever defined, so truthiness and
definedness coincide; group 4 is always defined when group 6 is not. -/
def correctHint (s : List Char) : List Char :=
  match execPattern s with
  | none => s
  | some (.sumForm op g4) =>
    op ++ '\\' :: '\x7b' :: trimChars (stripTrailing3 g4) ++ ['\\', '\x7d']
  | some (.setForm op g6) =>
    op ++ '\\' :: '\x7b' :: trimChars g6 ++ ['\\', '\x7d']

/-! ### The request pipeline (handler lines 178-231) -/

/-- Result of evaluating a JS expression: a value, or a thrown exception
(identified by its name/message). -/
inductive JsOutcome (α : Type) where
  | value : α → JsOutcome α
  | thrown : String → JsOutcome α
deriving DecidableEq, Repr

/-- The observable outcome of one `exec` of the external recognizer: its
stdout and stderr texts. -/
structure ExecResult where
  stdout : List Char
  stderr : List Char
deriving DecidableEq, Repr

/-- `extractLatexExpression(input)`: match `/LaTeX:\s*(.*)/` and return
`matches[1].trim()`.  When the marker is absent, `input.match` is `null`
and `matches[1]` throws a `TypeError` — the function never returns the
`null` its doc comment advertises.  `\s*` greedily eats whitespace (line
breaks included) after the marker and `(.*)` runs to the end of that
line. -/
def extractLatexExpression (input : List Char) : JsOutcome (List Char) :=
  match findAfter "LaTeX:".toList input with
  | none => .thrown "TypeError"
  | some rest =>
    .value (trimChars ((rest.dropWhile isWsChar).takeWhile isDotChar))

/-- The async arrow of `Promise.all` (handler lines 184-192): reject if
stderr is non-empty, else extract the LaTeX expression (which may itself
throw) and replace the ` COMMA ` artifacts. -/
def processOne (r : ExecResult) : JsOutcome (List Char) :=
  if r.stderr.isEmpty then
    match extractLatexExpression r.stdout with
    | .thrown e => .thrown e
    | .value s => .value (commaFix s)
  else .thrown "Error: Internal Server Error"

/-- `Promise.all` over the per-command invocations: the list of all values
in input order, or a rejection if any single invocation rejects. -/
def processAll : List ExecResult → JsOutcome (List (List Char))
  | [] => .value []
  | r :: rs =>
    match processOne r with
    | .thrown e => .thrown e
    | .value s =>
      match processAll rs with
      | .thrown e => .thrown e
      | .value ss => .value (s :: ss)

/-- The value delivered for one invocation when it succeeds (helper for
stating the success half of the batch contract). -/
def extractedOf (r : ExecResult) : List Char :=
  match processOne r with
  | .value v => v
  | .thrown _ => []

/-- The `for ([index, result] of results.entries())` loop: even-indexed
results are skipped, odd-indexed results go through the hint correction. -/
def correctHintsFrom (i : Nat) : List (List Char) → List (List Char)
  | [] => []
  | r :: rs =>
    (if i % 2 = 0 then r else correctHint r) :: correctHintsFrom (i + 1) rs

/-- The final cleanup chain (handler lines 214-220), applied to every
result: drop `=_`, collapse the doubled-brace artifact, drop an underscore
before a comparison operator — in that order. -/
def cleanupResult (r : List Char) : List Char :=
  scanRules underscoreOpRules (collapseExtraBraces (scanRules eqUnderscoreRules r))

/-- The full normalization applied to the successfully collected results. -/
def applyNormalization (rs : List (List Char)) : List (List Char) :=
  (correctHintsFrom 0 rs).map cleanupResult

/-- The HTTP response the handler sends: the result list, or the generic
500 `"Internal Server Error"` produced by the catch-all. -/
inductive Response where
  | ok : List (List Char) → Response
  | serverError : Response
deriving DecidableEq, Repr

/-- `handleGet` restricted to its observable contract on the recognizer
outcomes: any rejection or thrown error inside the `try` block is caught
and answered with the generic 500; otherwise the normalized results are
sent in input order.  (The file-assembly side effects are external
collaborators and return no data into the response.) -/
def handleGet (outs : List ExecResult) : Response :=
  match processAll outs with
  | .thrown _ => .serverError
  | .value rs => .ok (applyNormalization rs)

/-! ### Theorems -/

theorem toDigitsCore_eq_natDigits :
    ∀ (fuel n : Nat) (acc : List Char), n < fuel →
      Nat.toDigitsCore 10 fuel n acc = natDigits n ++ acc := by
  intro fuel
  induction fuel with
  | zero => intro n acc hn; exact absurd hn (Nat.not_lt_zero n)
  | succ f ih =>
    intro n acc h
    by_cases h10 : n / 10 = 0
    · have hlt : n < 10 := by omega
      have h1 : Nat.toDigitsCore 10 (f + 1) n acc = Nat.digitChar (n % 10) :: acc := by
        simp [Nat.toDigitsCore, h10]
      have h2 : natDigits n = [Nat.digitChar n] := by
        rw [natDigits, dif_pos hlt]
      rw [h1, h2, Nat.mod_eq_of_lt hlt]
      rfl
    · have hrec : n / 10 < f := by
        have h1 : n / 10 < n := Nat.div_lt_self (by omega) (by omega)
        omega
      have hstep : Nat.toDigitsCore 10 (f + 1) n acc =
          Nat.toDigitsCore 10 f (n / 10) (Nat.digitChar (n % 10) :: acc) := by
        simp [Nat.toDigitsCore, h10]
      rw [hstep, ih (n / 10) (Nat.digitChar (n % 10) :: acc) hrec]
      have hnd : natDigits n = natDigits (n / 10) ++ [Nat.digitChar (n % 10)] := by
        rw [natDigits, dif_neg (show ¬ n < 10 by omega)]
      rw [hnd]
      simp

theorem digitChar_toNat_sub (m : Nat) (h : m < 10) :
    (Nat.digitChar m).toNat - 48 = m := by
  have hall : ∀ k : Fin 10, (Nat.digitChar k.val).toNat - 48 = k.val := by decide
  exact hall ⟨m, h⟩

theorem digitsVal_append_digit (xs : List Char) (c : Char) :
    digitsVal (xs ++ [c]) = 10 * digitsVal xs + (c.toNat - 48) := by
  simp [digitsVal, List.foldl_append]

theorem digitsVal_natDigits : ∀ n : Nat, digitsVal (natDigits n) = n := by
  intro n
  induction n using Nat.strong_induction_on with
  | _ n ih =>
    by_cases h : n < 10
    · rw [natDigits, dif_pos h]
      simp [digitsVal, digitChar_toNat_sub n h]
    · have hdiv : n / 10 < n := Nat.div_lt_self (by omega) (by omega)
      have hmod : n % 10 < 10 := Nat.mod_lt _ (by omega)
      rw [natDigits, dif_neg h, digitsVal_append_digit, ih (n / 10) hdiv,
        digitChar_toNat_sub _ hmod]
      omega

theorem natDigits_injective : Function.Injective natDigits := by
  intro a b h
  have := congrArg digitsVal h
  rwa [digitsVal_natDigits, digitsVal_natDigits] at this

theorem braceBody_consumes :
    ∀ (s acc p r : List Char), braceBody acc s = some (p, r) →
      r.length + 3 ≤ s.length := by
  intro s
  induction s with
  | nil => intro acc p r h; simp [braceBody] at h
  | cons c rest ih =>
    intro acc p r h
    rw [braceBody] at h
    by_cases hcl : (!acc.isEmpty && c = '\\' && "\x7d\x7d".toList.isPrefixOf rest) = true
    · rw [if_pos hcl] at h
      simp only [Option.some.injEq, Prod.mk.injEq] at h
      have hpre : ("\x7d\x7d".toList).isPrefixOf rest = true := by
        simp only [Bool.and_eq_true] at hcl
        exact hcl.2
      have hlen : 2 ≤ rest.length := by
        have := List.IsPrefix.length_le ( List.isPrefixOf_iff_prefix.mp hpre)
        simpa using this
      rw [← h.2]
      simp only [List.length_drop, List.length_cons]
      omega
    · rw [if_neg hcl] at h
      by_cases hdot : isDotChar c = true
      · rw [if_pos hdot] at h
        have := ih (c :: acc) p r h
        simp only [List.length_cons]
        omega
      · rw [if_neg hdot] at h
        exact absurd h (by simp)

theorem repr_injective : Function.Injective Nat.repr := by
  intro a b h
  have ha : Nat.repr a = (natDigits a).asString := by
    show (Nat.toDigits 10 a).asString = (natDigits a).asString
    rw [Nat.toDigits, toDigitsCore_eq_natDigits (a + 1) a [] (by omega)]
    simp
  have hb : Nat.repr b = (natDigits b).asString := by
    show (Nat.toDigits 10 b).asString = (natDigits b).asString
    rw [Nat.toDigits, toDigitsCore_eq_natDigits (b + 1) b [] (by omega)]
    simp
  rw [ha, hb] at h
  have hd : natDigits a = natDigits b := by
    have := congrArg String.data h
    simpa [List.asString] using this
  exact natDigits_injective hd

/-! ### Trace ID Unifier lemmas -/

theorem assignUniqueTraceIDs_ids (ts : List Trace) (c : Nat) :
    (assignUniqueTraceIDs ts c).1.map Trace.id =
      (List.range' c ts.length).map Nat.repr := by
  induction ts generalizing c with
  | nil => simp [assignUniqueTraceIDs]
  | cons t ts ih => simp [assignUniqueTraceIDs, List.range'_succ, ih]

theorem assignUniqueTraceIDs_payloads (ts : List Trace) (c : Nat) :
    (assignUniqueTraceIDs ts c).1.map Trace.payload = ts.map Trace.payload := by
  induction ts generalizing c with
  | nil => simp [assignUniqueTraceIDs]
  | cons t ts ih => simp [assignUniqueTraceIDs, ih]

theorem assignUniqueTraceIDs_counter (ts : List Trace) (c : Nat) :
    (assignUniqueTraceIDs ts c).2 = c + ts.length := by
  induction ts generalizing c with
  | nil => simp [assignUniqueTraceIDs]
  | cons t ts ih => simp [assignUniqueTraceIDs, ih]; omega

theorem assignUniqueTraceIDs_length (ts : List Trace) (c : Nat) :
    (assignUniqueTraceIDs ts c).1.length = ts.length := by
  have := congrArg List.length (assignUniqueTraceIDs_ids ts c)
  simpa using this

theorem assignUniqueTraceGroupIDs_keys (gs : List (String × TraceGroupR)) (c : Nat) :
    (assignUniqueTraceGroupIDs gs c).1.map Prod.fst =
      (List.range' c gs.length).map Nat.repr := by
  induction gs generalizing c with
  | nil => simp [assignUniqueTraceGroupIDs]
  | cons g gs ih => simp [assignUniqueTraceGroupIDs, List.range'_succ, ih]

theorem assignUniqueTraceGroupIDs_vals (gs : List (String × TraceGroupR)) (c : Nat) :
    (assignUniqueTraceGroupIDs gs c).1.map Prod.snd = gs.map Prod.snd := by
  induction gs generalizing c with
  | nil => simp [assignUniqueTraceGroupIDs]
  | cons g gs ih => simp [assignUniqueTraceGroupIDs, ih]

theorem assignUniqueTraceGroupIDs_counter (gs : List (String × TraceGroupR)) (c : Nat) :
    (assignUniqueTraceGroupIDs gs c).2 = c + gs.length := by
  induction gs generalizing c with
  | nil => simp [assignUniqueTraceGroupIDs]
  | cons g gs ih => simp [assignUniqueTraceGroupIDs, ih]; omega

theorem updateTraceDataRefs_length (gs : List (String × TraceGroup))
    (m : List (String × String)) : (updateTraceDataRefs gs m).length = gs.length := by
  simp [updateTraceDataRefs]

theorem modifyGo_traceId_blocks :
    ∀ (info : List (String × InkmlData)) (tc gc : Nat),
      (modifyGo info tc gc).map (fun d => d.2.traces.map Trace.id) =
        specConsecutiveIdBlocks tc (info.map (fun d => d.2.traces.length)) := by
  intro info
  induction info with
  | nil => intro tc gc; simp [modifyGo, specConsecutiveIdBlocks]
  | cons d rest ih =>
    intro tc gc
    simp only [modifyGo, List.map_cons, specConsecutiveIdBlocks]
    refine congrArg₂ _ (assignUniqueTraceIDs_ids _ _) ?_
    rw [assignUniqueTraceIDs_counter, ih]

theorem modifyGo_trace_payloads :
    ∀ (info : List (String × InkmlData)) (tc gc : Nat),
      (modifyGo info tc gc).map (fun d => d.2.traces.map Trace.payload) =
        info.map (fun d => d.2.traces.map Trace.payload) := by
  intro info
  induction info with
  | nil => intro tc gc; simp [modifyGo]
  | cons d rest ih =>
    intro tc gc
    simp only [modifyGo, List.map_cons]
    exact congrArg₂ _ (assignUniqueTraceIDs_payloads _ _) (ih _ _)

theorem modifyGo_groupId_blocks :
    ∀ (info : List (String × InkmlData)) (tc gc : Nat),
      (modifyGo info tc gc).map (fun d => d.2.traceGroups.map Prod.fst) =
        specConsecutiveIdBlocks gc (info.map (fun d => d.2.traceGroups.length)) := by
  intro info
  induction info with
  | nil => intro tc gc; simp [modifyGo, specConsecutiveIdBlocks]
  | cons d rest ih =>
    intro tc gc
    simp only [modifyGo, List.map_cons, specConsecutiveIdBlocks]
    refine congrArg₂ _ ?_ ?_
    · rw [assignUniqueTraceGroupIDs_keys, updateTraceDataRefs_length]
    · rw [assignUniqueTraceGroupIDs_counter, updateTraceDataRefs_length, ih]

theorem mergedTraceIds_cons (d : String × InkmlDataR) (out : List (String × InkmlDataR)) :
    mergedTraceIds (d :: out) = d.2.traces.map Trace.id ++ mergedTraceIds out := by
  simp [mergedTraceIds, mergedTraces]

theorem mergedGroupIds_cons (d : String × InkmlDataR) (out : List (String × InkmlDataR)) :
    mergedGroupIds (d :: out) = d.2.traceGroups.map Prod.fst ++ mergedGroupIds out := by
  simp [mergedGroupIds, mergedGroups]

theorem mergedTraceIds_modifyGo :
    ∀ (info : List (String × InkmlData)) (tc gc : Nat),
      mergedTraceIds (modifyGo info tc gc) =
        (List.range' tc (totalTraceCount info)).map Nat.repr := by
  intro info
  induction info with
  | nil => intro tc gc; simp [modifyGo, mergedTraceIds, mergedTraces, totalTraceCount]
  | cons d rest ih =>
    intro tc gc
    rw [modifyGo]
    rw [mergedTraceIds_cons]
    rw [assignUniqueTraceIDs_ids, ih, assignUniqueTraceIDs_counter]
    rw [← List.map_append, List.range'_append_1]
    have : totalTraceCount (d :: rest) = totalTraceCount rest + d.2.traces.length := by
      simp [totalTraceCount]; omega
    rw [this]

theorem mergedGroupIds_modifyGo :
    ∀ (info : List (String × InkmlData)) (tc gc : Nat),
      mergedGroupIds (modifyGo info tc gc) =
        (List.range' gc (totalGroupCount info)).map Nat.repr := by
  intro info
  induction info with
  | nil => intro tc gc; simp [modifyGo, mergedGroupIds, mergedGroups, totalGroupCount]
  | cons d rest ih =>
    intro tc gc
    rw [modifyGo]
    rw [mergedGroupIds_cons]
    rw [assignUniqueTraceGroupIDs_keys, updateTraceDataRefs_length, ih,
      assignUniqueTraceGroupIDs_counter, updateTraceDataRefs_length]
    rw [← List.map_append, List.range'_append_1]
    have : totalGroupCount (d :: rest) = totalGroupCount rest + d.2.traceGroups.length := by
      simp [totalGroupCount]; omega
    rw [this]

theorem mergedTraces_length (out : List (String × InkmlDataR)) :
    (mergedTraces out).length = (mergedTraceIds out).length := by
  simp [mergedTraceIds]

theorem mergedGroups_length (out : List (String × InkmlDataR)) :
    (mergedGroups out).length = (mergedGroupIds out).length := by
  simp [mergedGroupIds]

theorem find?_key_mem :
    ∀ (l : List (String × String)) (k : String), k ∈ l.map Prod.fst →
      ∃ v, (l.find? (fun p => p.1 = k)).map (fun p => p.2) = some v ∧
        v ∈ l.map Prod.snd := by
  intro l k hk
  induction l with
  | nil => simp at hk
  | cons a l ih =>
    by_cases ha : a.1 = k
    · refine ⟨a.2, ?_, by simp⟩
      simp [List.find?, ha]
    · have hk2 : k ∈ l.map Prod.fst := by
        rcases List.mem_cons.mp hk with h1 | h1
        · exact absurd h1.symm ha
        · exact h1
      rcases ih hk2 with ⟨v, hv1, hv2⟩
      refine ⟨v, ?_, by simp [hv2]⟩
      rw [List.find?_cons_of_neg]
      · exact hv1
      · simp [ha]

theorem jsLookup_mem (m : List (String × String)) (k : String)
    (hk : k ∈ m.map Prod.fst) :
    ∃ v, jsLookup m k = some v ∧ v ∈ m.map Prod.snd := by
  have hk' : k ∈ m.reverse.map Prod.fst := by
    rw [List.map_reverse, List.mem_reverse]
    exact hk
  rcases find?_key_mem m.reverse k hk' with ⟨v, hv1, hv2⟩
  refine ⟨v, hv1, ?_⟩
  rw [List.map_reverse, List.mem_reverse] at hv2
  exact hv2

theorem buildTraceIdChanges_fst :
    ∀ (old new : List Trace) (k : String), new.length = old.length →
      k ∈ old.map Trace.id → k ∈ (buildTraceIdChanges old new).map Prod.fst := by
  intro old
  induction old with
  | nil => intro new k hlen hk; simp at hk
  | cons o old ih =>
    intro new k hlen hk
    match new with
    | [] => simp at hlen
    | n :: new =>
      simp only [buildTraceIdChanges, List.zipWith_cons_cons, List.map_cons,
        List.mem_cons] at hk ⊢
      rcases hk with h1 | h1
      · exact Or.inl h1
      · exact Or.inr (ih new k (by simpa using hlen) h1)

theorem buildTraceIdChanges_snd_mem :
    ∀ (old new : List Trace) (v : String),
      v ∈ (buildTraceIdChanges old new).map Prod.snd → v ∈ new.map Trace.id := by
  intro old
  induction old with
  | nil => intro new v hv; simp [buildTraceIdChanges] at hv
  | cons o old ih =>
    intro new v hv
    match new with
    | [] => simp [buildTraceIdChanges] at hv
    | n :: new =>
      simp only [buildTraceIdChanges, List.zipWith_cons_cons, List.map_cons,
        List.mem_cons] at hv ⊢
      rcases hv with h1 | h1
      · exact Or.inl h1
      · exact Or.inr (ih new v h1)

theorem mem_assignUniqueTraceGroupIDs_snd :
    ∀ (gs : List (String × TraceGroupR)) (c : Nat) (g : String × TraceGroupR),
      g ∈ (assignUniqueTraceGroupIDs gs c).1 → g.2 ∈ gs.map Prod.snd := by
  intro gs
  induction gs with
  | nil => intro c g hg; simp [assignUniqueTraceGroupIDs] at hg
  | cons g0 gs ih =>
    intro c g hg
    simp only [assignUniqueTraceGroupIDs, List.mem_cons] at hg
    rcases hg with h1 | h1
    · simp [h1]
    · simp only [List.map_cons, List.mem_cons]
      exact Or.inr (ih (c + 1) g h1)

/-! ### Claim theorems for the Trace ID Unifier -/

/-- C1: for every batch of input documents, the merged structure produced by
`modifyIDsToUnique` contains exactly the sum of the per-document trace
counts many traces, with pairwise-distinct identifiers, and exactly the sum
of the per-document group counts many groups, with pairwise-distinct
identifiers; in particular no two documents' traces collide. -/
theorem claim_C1_merged_counts_distinct (info : List (String × InkmlData)) :
    (mergedTraces (modifyIDsToUnique info)).length = totalTraceCount info ∧
    (mergedTraceIds (modifyIDsToUnique info)).Nodup ∧
    (mergedGroups (modifyIDsToUnique info)).length = totalGroupCount info ∧
    (mergedGroupIds (modifyIDsToUnique info)).Nodup := by
  have ht := mergedTraceIds_modifyGo info 1 1
  have hg := mergedGroupIds_modifyGo info 1 1
  rw [modifyIDsToUnique] at *
  refine ⟨?_, ?_, ?_, ?_⟩
  · rw [mergedTraces_length, ht]
    simp
  · rw [ht]
    exact (List.nodup_range' ..).map repr_injective
  · rw [mergedGroups_length, hg]
    simp
  · rw [hg]
    exact (List.nodup_range' ..).map repr_injective

/-- C4: the identifiers produced by `modifyIDsToUnique` are a deterministic
function of the batch shape alone (so two runs on the same input, or on any
two inputs with the same per-document trace/group counts in the same
iteration order, yield identical merged identifiers), and they are assigned
as the consecutive counter values `1..Σ` in document iteration order — for
the integer-like file keys built by the server this is ascending input
sequence-number order. -/
theorem claim_C4_determinism (info1 info2 : List (String × InkmlData))
    (hshape : docShape info1 = docShape info2) :
    mergedTraceIds (modifyIDsToUnique info1) =
      (List.range' 1 (totalTraceCount info1)).map Nat.repr ∧
    mergedGroupIds (modifyIDsToUnique info1) =
      (List.range' 1 (totalGroupCount info1)).map Nat.repr ∧
    mergedTraceIds (modifyIDsToUnique info1) = mergedTraceIds (modifyIDsToUnique info2) ∧
    mergedGroupIds (modifyIDsToUnique info1) = mergedGroupIds (modifyIDsToUnique info2) := by
  have htc : info1.map (fun d => d.2.traces.length) =
      info2.map (fun d => d.2.traces.length) := by
    have := congrArg (List.map Prod.fst) hshape
    simpa [docShape, List.map_map, Function.comp] using this
  have hgc : info1.map (fun d => d.2.traceGroups.length) =
      info2.map (fun d => d.2.traceGroups.length) := by
    have := congrArg (List.map Prod.snd) hshape
    simpa [docShape, List.map_map, Function.comp] using this
  have htot : totalTraceCount info1 = totalTraceCount info2 := by
    rw [totalTraceCount, totalTraceCount, htc]
  have hgtot : totalGroupCount info1 = totalGroupCount info2 := by
    rw [totalGroupCount, totalGroupCount, hgc]
  refine ⟨mergedTraceIds_modifyGo info1 1 1, mergedGroupIds_modifyGo info1 1 1, ?_, ?_⟩
  · rw [modifyIDsToUnique, modifyIDsToUnique, mergedTraceIds_modifyGo,
      mergedTraceIds_modifyGo, htot]
  · rw [modifyIDsToUnique, modifyIDsToUnique, mergedGroupIds_modifyGo,
      mergedGroupIds_modifyGo, hgtot]

/-- Witness for C4 at concrete inputs: two batches with the same shape but
different trace ids, payloads and file keys receive identical merged
identifiers. -/
theorem claim_C4_witness :
    mergedTraceIds (modifyIDsToUnique
        [("1", { traces := [{ id := "7", payload := "a" }],
                 traceGroups := [("0", { traceDataRefs := ["7"], payload := "g" })] })]) =
      mergedTraceIds (modifyIDsToUnique
        [("9", { traces := [{ id := "0", payload := "b" }],
                 traceGroups := [("4", { traceDataRefs := ["0"], payload := "h" })] })]) :=
  (claim_C4_determinism _ _ (by decide)).2.2.1

/-- C5: per document (in iteration order), the new trace identifiers
assigned by `assignUniqueTraceIDs` inside `modifyIDsToUnique` form the block
of consecutive counter values starting where the previous document's block
ended, in the same relative order as the document's original trace list
(whose payloads are untouched): the first trace of a document receives the
smallest identifier of its block. -/
theorem claim_C5_order_preservation (info : List (String × InkmlData)) :
    (modifyIDsToUnique info).map (fun d => d.2.traces.map Trace.id) =
      specConsecutiveIdBlocks 1 (info.map (fun d => d.2.traces.length)) ∧
    (modifyIDsToUnique info).map (fun d => d.2.traces.map Trace.payload) =
      info.map (fun d => d.2.traces.map Trace.payload) :=
  ⟨modifyGo_traceId_blocks info 1 1, modifyGo_trace_payloads info 1 1⟩

/-- C2: if every `traceDataRefs` entry of every input document names a trace
identifier of the same document (the stated precondition), then every entry
in the merged output is a defined reference equal to some trace identifier
present among the merged output's traces. -/
theorem claim_C2_referential_integrity (info : List (String × InkmlData))
    (h : ∀ d ∈ info, ∀ g ∈ d.2.traceGroups, ∀ ref ∈ g.2.traceDataRefs,
      ref ∈ d.2.traces.map Trace.id) :
    ∀ d ∈ modifyIDsToUnique info, ∀ g ∈ d.2.traceGroups,
      ∀ r ∈ g.2.traceDataRefs,
        ∃ i, r = some i ∧ i ∈ mergedTraceIds (modifyIDsToUnique info) := by
  rw [modifyIDsToUnique]
  suffices key : ∀ (info : List (String × InkmlData)) (tc gc : Nat),
      (∀ d ∈ info, ∀ g ∈ d.2.traceGroups, ∀ ref ∈ g.2.traceDataRefs,
        ref ∈ d.2.traces.map Trace.id) →
      ∀ d ∈ modifyGo info tc gc, ∀ g ∈ d.2.traceGroups,
        ∀ r ∈ g.2.traceDataRefs,
          ∃ i, r = some i ∧ i ∈ mergedTraceIds (modifyGo info tc gc) by
    exact key info 1 1 h
  clear h info
  intro info
  induction info with
  | nil => intro tc gc h d hd; simp [modifyGo] at hd
  | cons d0 rest ih =>
    intro tc gc h d hd g hg r hr
    rw [modifyGo] at hd
    rw [modifyGo, mergedTraceIds_cons]
    rcases List.mem_cons.mp hd with hhead | htail
    · -- the document at hand is the head document
      subst hhead
      have hsnd := mem_assignUniqueTraceGroupIDs_snd _ gc g hg
      rcases List.mem_map.mp hsnd with ⟨kg', hkg', hval⟩
      rcases List.mem_map.mp hkg' with ⟨kg, hkg, hmapval⟩
      have hrefs : g.2.traceDataRefs =
          kg.2.traceDataRefs.map (jsLookup (buildTraceIdChanges d0.2.traces
            (assignUniqueTraceIDs d0.2.traces tc).1)) := by
        rw [← hval, ← hmapval]
      rw [hrefs] at hr
      rcases List.mem_map.mp hr with ⟨ref, href, hlook⟩
      have hrefin : ref ∈ d0.2.traces.map Trace.id :=
        h d0 (List.mem_cons_self _ _) kg hkg ref href
      have hlen : (assignUniqueTraceIDs d0.2.traces tc).1.length =
          d0.2.traces.length := assignUniqueTraceIDs_length _ _
      have hfst := buildTraceIdChanges_fst d0.2.traces
        (assignUniqueTraceIDs d0.2.traces tc).1 ref hlen hrefin
      rcases jsLookup_mem _ ref hfst with ⟨v, hv1, hv2⟩
      refine ⟨v, by rw [← hlook, hv1], ?_⟩
      have hvin : v ∈ (assignUniqueTraceIDs d0.2.traces tc).1.map Trace.id :=
        buildTraceIdChanges_snd_mem _ _ v hv2
      exact List.mem_append.mpr (Or.inl hvin)
    · -- the document at hand comes from the tail
      have hrest : ∀ d ∈ rest, ∀ g ∈ d.2.traceGroups,
          ∀ ref ∈ g.2.traceDataRefs, ref ∈ d.2.traces.map Trace.id := by
        intro d' hd' g' hg' ref href
        exact h d' (List.mem_cons_of_mem _ hd') g' hg' ref href
      rcases ih _ _ hrest d htail g hg r hr with ⟨i, hi1, hi2⟩
      exact ⟨i, hi1, List.mem_append.mpr (Or.inr hi2)⟩

/-- Witness for C2: the first rewritten reference of a concrete
one-document batch satisfying the precondition resolves to a merged trace
identifier. -/
theorem claim_C2_witness :
    ∃ i, (some "2" : Option String) = some i ∧
      i ∈ mergedTraceIds (modifyIDsToUnique
        [("1", { traces := [{ id := "0", payload := "a" }, { id := "1", payload := "b" }],
                 traceGroups := [("0", { traceDataRefs := ["1", "0"], payload := "g" })] })]) :=
  claim_C2_referential_integrity
    [("1", { traces := [{ id := "0", payload := "a" }, { id := "1", payload := "b" }],
             traceGroups := [("0", { traceDataRefs := ["1", "0"], payload := "g" })] })]
    (by decide)
    ("1", { traces := [{ id := "1", payload := "a" }, { id := "2", payload := "b" }],
            traceGroups := [("1", { traceDataRefs := [some "2", some "1"],
                                    payload := "g" })] })
    (by decide)
    ("1", { traceDataRefs := [some "2", some "1"], payload := "g" })
    (by decide)
    (some "2")
    (by decide)

/-- C3: evidence for the claim/code divergence — on a document whose single
group references trace id `"5"` that is absent from the document's trace
list, `modifyIDsToUnique` returns normally (it signals no error) and the
dangling entry is silently rewritten to JS `undefined` (`none`). -/
theorem claim_C3_dangling_ref_eval :
    modifyIDsToUnique
      [("1", { traces := [{ id := "0", payload := "pts" }],
               traceGroups := [("0", { traceDataRefs := ["5"], payload := "sym" })] })] =
      [("1", { traces := [{ id := "1", payload := "pts" }],
               traceGroups := [("1", { traceDataRefs := [none], payload := "sym" })] })] := by
  decide

/-! ### Scanning lemmas -/

theorem scanRulesFuel_congr (rules : List ScanRule) :
    ∀ (f1 : Nat) (s : List Char) (f2 : Nat), s.length ≤ f1 → s.length ≤ f2 →
      scanRulesFuel rules f1 s = scanRulesFuel rules f2 s := by
  intro f1
  induction f1 with
  | zero =>
    intro s f2 h1 h2
    have hs : s = [] := List.length_eq_zero.mp (Nat.le_zero.mp h1)
    subst hs
    cases f2 <;> rfl
  | succ f ih =>
    intro s f2 h1 h2
    match s with
    | [] => cases f2 <;> rfl
    | c :: rest =>
      match f2 with
      | 0 => simp at h2
      | f2 + 1 =>
        rw [scanRulesFuel, scanRulesFuel]
        cases hfr : findRule rules c rest with
        | none =>
          rw [ih rest f2 (by simp at h1; omega) (by simp at h2; omega)]
        | some pr =>
          simp only
          rw [ih (rest.drop pr.1.length) f2
            (by simp only [List.length_drop]; simp at h1; omega)
            (by simp only [List.length_drop]; simp at h2; omega)]

theorem scanRules_nil (rules : List ScanRule) : scanRules rules [] = [] := rfl

theorem scanRules_cons (rules : List ScanRule) (c : Char) (rest : List Char) :
    scanRules rules (c :: rest) =
      match findRule rules c rest with
      | some pr => pr.2 ++ scanRules rules (rest.drop pr.1.length)
      | none => c :: scanRules rules rest := by
  show scanRulesFuel rules (rest.length + 1) (c :: rest) = _
  rw [scanRulesFuel]
  cases hfr : findRule rules c rest with
  | none => rfl
  | some pr =>
    simp only
    rw [scanRulesFuel_congr rules rest.length (rest.drop pr.1.length)
      (rest.drop pr.1.length).length (by simp only [List.length_drop]; omega)
      (Nat.le_refl _)]
    rfl

theorem collapseFuel_congr :
    ∀ (f1 : Nat) (s : List Char) (f2 : Nat), s.length ≤ f1 → s.length ≤ f2 →
      collapseFuel f1 s = collapseFuel f2 s := by
  intro f1
  induction f1 with
  | zero =>
    intro s f2 h1 h2
    have hs : s = [] := List.length_eq_zero.mp (Nat.le_zero.mp h1)
    subst hs
    cases f2 <;> rfl
  | succ f ih =>
    intro s f2 h1 h2
    match s with
    | [] => cases f2 <;> rfl
    | c :: rest =>
      match f2 with
      | 0 => simp at h2
      | f2 + 1 =>
        rw [collapseFuel, collapseFuel]
        by_cases hc : (c = '=' && "\x7b\\\x7b".toList.isPrefixOf rest) = true
        · rw [if_pos hc, if_pos hc]
          cases hb : braceBody [] (rest.drop 3) with
          | none => rw [ih rest f2 (by simp at h1; omega) (by simp at h2; omega)]
          | some pr =>
            simp only
            have hcons := braceBody_consumes _ _ _ _ hb
            simp only [List.length_drop] at hcons
            rw [ih pr.2 f2 (by simp at h1; omega) (by simp at h2; omega)]
        · rw [if_neg hc, if_neg hc]
          rw [ih rest f2 (by simp at h1; omega) (by simp at h2; omega)]

theorem collapseExtraBraces_nil : collapseExtraBraces [] = [] := rfl

theorem collapseExtraBraces_cons (c : Char) (rest : List Char) :
    collapseExtraBraces (c :: rest) =
      if c = '=' && "\x7b\\\x7b".toList.isPrefixOf rest then
        match braceBody [] (rest.drop 3) with
        | some pr => "=\x7b".toList ++ pr.1 ++ ['\x7d'] ++ collapseExtraBraces pr.2
        | none => c :: collapseExtraBraces rest
      else c :: collapseExtraBraces rest := by
  show collapseFuel (rest.length + 1) (c :: rest) = _
  rw [collapseFuel]
  by_cases hc : (c = '=' && "\x7b\\\x7b".toList.isPrefixOf rest) = true
  · rw [if_pos hc, if_pos hc]
    cases hb : braceBody [] (rest.drop 3) with
    | none => rfl
    | some pr =>
      simp only
      have hcons := braceBody_consumes _ _ _ _ hb
      simp only [List.length_drop] at hcons
      rw [collapseFuel_congr rest.length pr.2 pr.2.length (by omega) (Nat.le_refl _)]
      rfl
  · rw [if_neg hc, if_neg hc]
    rfl

theorem containsSub_of_isPrefixOf (p s : List Char) (h : p.isPrefixOf s = true) :
    containsSub p s = true := by
  match s with
  | [] => simpa [containsSub] using h
  | c :: rest => simp [containsSub, h]

theorem containsSub_cons_false (p : List Char) (c : Char) (t : List Char)
    (h : containsSub p (c :: t) = false) : containsSub p t = false := by
  rw [containsSub, Bool.or_eq_false_iff] at h
  exact h.2

theorem findAfter_eq_none (p : List Char) :
    ∀ s, containsSub p s = false → findAfter p s = none := by
  intro s
  induction s with
  | nil =>
    intro h
    rw [containsSub] at h
    simp [findAfter, h]
  | cons c rest ih =>
    intro h
    have h2 := h
    rw [containsSub, Bool.or_eq_false_iff] at h2
    rw [findAfter, if_neg (by simp [h2.1])]
    exact ih h2.2

theorem findAfter_isSome (p : List Char) :
    ∀ s, containsSub p s = true → ∃ rest, findAfter p s = some rest := by
  intro s
  induction s with
  | nil =>
    intro h
    rw [containsSub] at h
    exact ⟨[], by simp [findAfter, h]⟩
  | cons c rest ih =>
    intro h
    rw [containsSub, Bool.or_eq_true] at h
    by_cases hp : p.isPrefixOf (c :: rest) = true
    · exact ⟨_, by rw [findAfter, if_pos hp]⟩
    · rcases h with h1 | h1
      · exact absurd h1 hp
      · rcases ih h1 with ⟨r, hr⟩
        exact ⟨r, by rw [findAfter, if_neg hp]; exact hr⟩

theorem findRule_some_mem :
    ∀ (rules : List ScanRule) (c : Char) (rest p rep : List Char),
      findRule rules c rest = some (p, rep) →
      ∃ r ∈ rules, r.1 = c ∧ r.2.1 = p ∧ p.isPrefixOf rest = true := by
  intro rules
  induction rules with
  | nil => intro c rest p rep h; simp [findRule] at h
  | cons r rs ih =>
    intro c rest p rep h
    rw [findRule] at h
    by_cases hc : (c = r.1 && r.2.1.isPrefixOf rest) = true
    · rw [if_pos hc] at h
      simp only [Option.some.injEq, Prod.mk.injEq] at h
      simp only [Bool.and_eq_true, decide_eq_true_eq] at hc
      exact ⟨r, List.mem_cons_self _ _, hc.1.symm, h.1, h.1 ▸ hc.2⟩
    · rw [if_neg hc] at h
      rcases ih c rest p rep h with ⟨r', hr', hprops⟩
      exact ⟨r', List.mem_cons_of_mem _ hr', hprops⟩

theorem scanRules_id (rules : List ScanRule) :
    ∀ s, (∀ r ∈ rules, containsSub (r.1 :: r.2.1) s = false) →
      scanRules rules s = s := by
  intro s
  induction s with
  | nil => intro h; rw [scanRules_nil]
  | cons c rest ih =>
    intro h
    rw [scanRules_cons]
    have hnone : findRule rules c rest = none := by
      rcases hfr : findRule rules c rest with _ | pr
      · rfl
      · exfalso
        rcases findRule_some_mem rules c rest pr.1 pr.2 hfr with ⟨r, hrmem, hc, hp, hpre⟩
        have : containsSub (r.1 :: r.2.1) (c :: rest) = true := by
          apply containsSub_of_isPrefixOf
          rw [hc, hp]
          simp [List.isPrefixOf, hpre]
        rw [h r hrmem] at this
        exact Bool.false_ne_true this
    rw [hnone]
    have : scanRules rules rest = rest :=
      ih (fun r hr => containsSub_cons_false _ _ _ (h r hr))
    rw [this]

theorem scanRules_single_junction (c0 : Char) (prest rep : List Char) :
    ∀ (a b : List Char),
      containsSub (c0 :: prest) (a ++ (c0 :: prest).dropLast) = false →
      containsSub (c0 :: prest) b = false →
      scanRules [(c0, prest, rep)] (a ++ (c0 :: prest) ++ b) = a ++ rep ++ b := by
  intro a
  induction a with
  | nil =>
    intro b _ hb
    have hid : scanRules [(c0, prest, rep)] b = b := scanRules_id _ b (by
      intro r hr
      rw [List.mem_singleton] at hr
      subst hr
      exact hb)
    have hfr : findRule [(c0, prest, rep)] c0 (prest ++ b) = some (prest, rep) := by
      simp [findRule, List.isPrefixOf_iff_prefix.mpr (List.prefix_append prest b)]
    simp only [List.nil_append]
    have hshape : (c0 :: prest) ++ b = c0 :: (prest ++ b) := by simp
    rw [hshape, scanRules_cons, hfr]
    show rep ++ scanRules [(c0, prest, rep)] ((prest ++ b).drop prest.length) = rep ++ b
    rw [List.drop_left, hid]
  | cons x a' ih =>
    intro b ha hb
    have hconsshape : (x :: a') ++ (c0 :: prest) ++ b =
        x :: (a' ++ (c0 :: prest) ++ b) := by simp
    rw [hconsshape, scanRules_cons]
    have hnone : findRule [(c0, prest, rep)] x (a' ++ (c0 :: prest) ++ b) = none := by
      rcases hfr : findRule [(c0, prest, rep)] x (a' ++ (c0 :: prest) ++ b) with _ | pr
      · rfl
      · exfalso
        rcases findRule_some_mem _ _ _ pr.1 pr.2 hfr with ⟨r, hrmem, hc, hp, hpre⟩
        rw [List.mem_singleton] at hrmem
        subst hrmem
        simp only at hc hp
        rw [← hp] at hpre
        -- the full pattern is a prefix of the scanned text at this position
        have hbig : (c0 :: prest) <+: x :: (a' ++ (c0 :: prest) ++ b) := by
          rw [List.cons_prefix_cons]
          exact ⟨hc, List.isPrefixOf_iff_prefix.mp hpre⟩
        -- hence it is a prefix of the truncation that drops the final b and
        -- the last pattern character
        have hsmall : (c0 :: prest) <+: (x :: a') ++ (c0 :: prest).dropLast := by
          apply List.prefix_of_prefix_length_le hbig
          · have h1 : (c0 :: prest).dropLast <+: (c0 :: prest) ++ b :=
              ( List.dropLast_prefix _).trans (List.prefix_append _ _)
            rcases h1 with ⟨u, hu⟩
            refine ⟨u, ?_⟩
            have : (x :: a') ++ ((c0 :: prest).dropLast ++ u) =
                x :: (a' ++ (c0 :: prest) ++ b) := by
              rw [hu]; simp
            simpa [List.append_assoc] using this
          · simp only [List.length_append, List.length_cons, List.length_dropLast]
            omega
        have : containsSub (c0 :: prest) ((x :: a') ++ (c0 :: prest).dropLast) = true := by
          have hshape2 : (x :: a') ++ (c0 :: prest).dropLast =
              x :: (a' ++ (c0 :: prest).dropLast) := by simp
          rw [hshape2]
          apply containsSub_of_isPrefixOf
          apply List.isPrefixOf_iff_prefix.mpr
          rw [← hshape2]
          exact hsmall
        rw [ha] at this
        exact Bool.false_ne_true this
    rw [hnone]
    have hatail : containsSub (c0 :: prest) (a' ++ (c0 :: prest).dropLast) = false := by
      apply containsSub_cons_false _ x
      have hshape2 : x :: (a' ++ (c0 :: prest).dropLast) =
          (x :: a') ++ (c0 :: prest).dropLast := by simp
      rw [hshape2]
      exact ha
    have := ih b hatail hb
    simp only [List.append_assoc] at this ⊢
    rw [this]
    simp

theorem collapseExtraBraces_id :
    ∀ s, containsSub "=\x7b\\\x7b".toList s = false → collapseExtraBraces s = s := by
  intro s
  induction s with
  | nil => intro h; rw [collapseExtraBraces_nil]
  | cons c rest ih =>
    intro h
    have h2 := h
    rw [containsSub, Bool.or_eq_false_iff] at h2
    rw [collapseExtraBraces_cons]
    have hcond : (c = '=' && "\x7b\\\x7b".toList.isPrefixOf rest) = false := by
      by_contra hc
      have hc2 : (c = '=' && "\x7b\\\x7b".toList.isPrefixOf rest) = true := by
        revert hc
        cases (c = '=' && "\x7b\\\x7b".toList.isPrefixOf rest) <;> simp
      simp only [Bool.and_eq_true, decide_eq_true_eq] at hc2
      have : ("=\x7b\\\x7b".toList).isPrefixOf (c :: rest) = true := by
        have hsplit : "=\x7b\\\x7b".toList = '=' :: "\x7b\\\x7b".toList := by decide
        apply List.isPrefixOf_iff_prefix.mpr
        rw [hsplit, List.cons_prefix_cons]
        exact ⟨hc2.1.symm, List.isPrefixOf_iff_prefix.mp hc2.2⟩
      rw [h2.1] at this
      exact Bool.false_ne_true this
    rw [if_neg (show ¬((c = '=' && "\x7b\\\x7b".toList.isPrefixOf rest) = true) from by
      intro hcontra
      rw [hcond] at hcontra
      exact Bool.false_ne_true hcontra)]
    rw [ih h2.2]

theorem correctHint_of_no_match (s : List Char) (h : execPattern s = none) :
    correctHint s = s := by
  rw [correctHint, h]

theorem cleanupResult_id (s : List Char)
    (h1 : containsSub "=_".toList s = false)
    (h2 : containsSub "=\x7b\\\x7b".toList s = false)
    (h3 : containsSub "_=".toList s = false)
    (h4 : containsSub "_\\lt".toList s = false)
    (h5 : containsSub "_\\gt".toList s = false)
    (h6 : containsSub "_\\leq".toList s = false)
    (h7 : containsSub "_\\geq".toList s = false) :
    cleanupResult s = s := by
  rw [cleanupResult]
  rw [scanRules_id eqUnderscoreRules s (by
    intro r hr
    rw [eqUnderscoreRules, List.mem_singleton] at hr
    subst hr
    simpa using h1)]
  rw [collapseExtraBraces_id s h2]
  rw [scanRules_id underscoreOpRules s (by
    intro r hr
    rw [underscoreOpRules] at hr
    fin_cases hr
    · simpa using h3
    · simpa using h4
    · simpa using h5
    · simpa using h6
    · simpa using h7)]

/-! ### Pipeline lemmas -/

theorem processAll_value_of_all :
    ∀ (outs : List ExecResult), (∀ r ∈ outs, ∃ v, processOne r = .value v) →
      processAll outs = .value (outs.map extractedOf) := by
  intro outs
  induction outs with
  | nil => intro h; simp [processAll]
  | cons r rs ih =>
    intro h
    rcases h r (List.mem_cons_self _ _) with ⟨v, hv⟩
    have hext : extractedOf r = v := by rw [extractedOf, hv]
    rw [processAll, hv, ih (fun x hx => h x (List.mem_cons_of_mem _ hx))]
    simp [hext]

theorem processAll_thrown_of_mem :
    ∀ (outs : List ExecResult) (r : ExecResult), r ∈ outs →
      (∀ v, processOne r ≠ .value v) → ∃ e, processAll outs = .thrown e := by
  intro outs
  induction outs with
  | nil => intro r hr; simp at hr
  | cons a rs ih =>
    intro r hr hnv
    rcases List.mem_cons.mp hr with heq | htail
    · subst heq
      rcases hp : processOne r with v | e
      · exact absurd hp (hnv v)
      · exact ⟨e, by rw [processAll, hp]⟩
    · rcases hp : processOne a with v | e
      · rcases ih r htail hnv with ⟨e', he'⟩
        exact ⟨e', by rw [processAll, hp, he']⟩
      · exact ⟨e, by rw [processAll, hp]⟩

theorem correctHintsFrom_length :
    ∀ (rs : List (List Char)) (i : Nat), (correctHintsFrom i rs).length = rs.length := by
  intro rs
  induction rs with
  | nil => intro i; rw [correctHintsFrom]
  | cons r rs ih => intro i; rw [correctHintsFrom]; simp [ih]

theorem applyNormalization_length (rs : List (List Char)) :
    (applyNormalization rs).length = rs.length := by
  rw [applyNormalization]
  simp [correctHintsFrom_length]

theorem extractLatex_value_of_marker (s : List Char)
    (h : containsSub "LaTeX:".toList s = true) :
    ∃ v, extractLatexExpression s = .value v := by
  rcases findAfter_isSome _ s h with ⟨rest, hr⟩
  exact ⟨_, by rw [extractLatexExpression, hr]⟩

/-! ### Claim theorems for the Notation Normalizer and the dispatcher -/

/-- C6 (counterexample): on the odd-position hint `=_{\sum i=1}^{n}3` the
pattern correction followed by the final cleanup does not produce
`=\{\sum i=1\}`: group 4 of the regex starts after `\sum\s*`, so the
summation symbol is consumed by the pattern and does not survive into the
rewritten payload. -/
theorem claim_C6_counterexample :
    cleanupResult (correctHint "=_\x7b\\sum i=1\x7d^\x7bn\x7d3".toList) ≠
      "=\\\x7b\\sum i=1\\\x7d".toList := by
  decide

/-- C6 (amended): on the odd-position hint `=_{\sum i=1}^{n}3` the pattern
correction followed by the final cleanup produces exactly `=\{i=1\}`: the
whole hint is replaced by the operator followed by the brace-wrapped
payload, where the payload is the text between `\sum` (plus following
whitespace) and the closing `}` of the subscript; the `^{n}3` suffix is
dropped together with the rest of the original text, and no stray
underscore remains. -/
theorem claim_C6_eval :
    cleanupResult (correctHint "=_\x7b\\sum i=1\x7d^\x7bn\x7d3".toList) =
      "=\\\x7bi=1\\\x7d".toList := by
  decide

/-- C8 (counterexample): the odd-indexed hint `=_x` does not match the
pattern grammar, yet the normalizer does not return it unchanged — the
final cleanup pass rewrites its `=_` artifact, so `=x` is returned. -/
theorem claim_C8_counterexample :
    execPattern "=_x".toList = none ∧
    applyNormalization ["y".toList, "=_x".toList] = ["y".toList, "=x".toList] ∧
    "=x".toList ≠ "=_x".toList := by
  decide

/-- C8 (amended): an odd-indexed hint that does not match the pattern
grammar is left unchanged by the pattern-correction pass — the mismatch is
non-fatal and never surfaces as an error — and the hint is returned fully
unchanged provided it also contains none of the artifact substrings that
the final cleanup pass rewrites (`=_`, `={\{`, or an underscore before a
comparison operator). -/
theorem claim_C8_passthrough (p s : List Char)
    (hmatch : execPattern s = none)
    (h1 : containsSub "=_".toList s = false)
    (h2 : containsSub "=\x7b\\\x7b".toList s = false)
    (h3 : containsSub "_=".toList s = false)
    (h4 : containsSub "_\\lt".toList s = false)
    (h5 : containsSub "_\\gt".toList s = false)
    (h6 : containsSub "_\\leq".toList s = false)
    (h7 : containsSub "_\\geq".toList s = false) :
    applyNormalization [p, s] = [cleanupResult p, s] := by
  have hdef : applyNormalization [p, s] =
      [cleanupResult p, cleanupResult (correctHint s)] := rfl
  rw [hdef, correctHint_of_no_match s hmatch,
    cleanupResult_id s h1 h2 h3 h4 h5 h6 h7]

/-- Witness for C8 at a concrete non-matching, artifact-free hint. -/
theorem claim_C8_witness :
    applyNormalization ["a".toList, "xyz".toList] =
      [cleanupResult "a".toList, "xyz".toList] :=
  claim_C8_passthrough _ _ (by decide) (by decide) (by decide) (by decide)
    (by decide) (by decide) (by decide) (by decide)

/-- C9 (counterexample): an occurrence of the token `COMMA` that is not
flanked by spaces on both sides is not replaced: the regex is
`/ COMMA /g`, so `aCOMMAb` passes through unchanged even though it
contains the literal token. -/
theorem claim_C9_counterexample :
    containsSub "COMMA".toList "aCOMMAb".toList = true ∧
    commaFix "aCOMMAb".toList = "aCOMMAb".toList := by
  decide

/-- C9 (amended): every space-flanked occurrence ` COMMA ` is replaced by
the comma-space separator `, ` — here an occurrence with no earlier match
overlapping it and no further occurrence after it, matched left to right
without rescanning replacements. -/
theorem claim_C9_comma_replacement (a b : List Char)
    (ha : containsSub " COMMA ".toList (a ++ (" COMMA ".toList).dropLast) = false)
    (hb : containsSub " COMMA ".toList b = false) :
    commaFix (a ++ " COMMA ".toList ++ b) = a ++ ", ".toList ++ b := by
  have hpat : " COMMA ".toList = ' ' :: "COMMA ".toList := by decide
  rw [commaFix, commaRules, hpat] at *
  exact scanRules_single_junction ' ' "COMMA ".toList ", ".toList a b ha hb

/-- Witness for C9 at a concrete expression. -/
theorem claim_C9_witness :
    commaFix ("x".toList ++ " COMMA ".toList ++ "y".toList) =
      "x".toList ++ ", ".toList ++ "y".toList :=
  claim_C9_comma_replacement _ _ (by decide) (by decide)

/-- C7 (counterexample): a batch whose single invocation signals no error
(its stderr is empty) can still fail to deliver a result per input: when
the stdout lacks the `LaTeX:` marker, the extraction throws and the caller
receives the generic failure instead of a one-element result list. -/
theorem claim_C7_counterexample :
    (∀ r ∈ [({ stdout := "hello".toList, stderr := [] } : ExecResult)],
      r.stderr = ([] : List Char)) ∧
    handleGet [{ stdout := "hello".toList, stderr := [] }] = .serverError := by
  decide

/-- C7 (amended): if any single recognition invocation signals an error
(non-empty stderr), the entire batch is aborted with one generic failure
and no partial result list; if no invocation errors and every stdout
contains the `LaTeX:` marker, the caller receives one result string per
input, in input order. -/
theorem claim_C7_batch_contract (outs : List ExecResult) :
    ((∃ r ∈ outs, r.stderr ≠ []) → handleGet outs = .serverError) ∧
    ((∀ r ∈ outs, r.stderr = [] ∧ containsSub "LaTeX:".toList r.stdout = true) →
      handleGet outs = .ok (applyNormalization (outs.map extractedOf)) ∧
      (applyNormalization (outs.map extractedOf)).length = outs.length) := by
  constructor
  · rintro ⟨r, hr, hne⟩
    have hnv : ∀ v, processOne r ≠ .value v := by
      intro v
      rw [processOne, if_neg (by simp [List.isEmpty_iff, hne])]
      simp
    rcases processAll_thrown_of_mem outs r hr hnv with ⟨e, he⟩
    rw [handleGet, he]
  · intro h
    have hval : ∀ r ∈ outs, ∃ v, processOne r = .value v := by
      intro r hr
      rcases h r hr with ⟨hse, hmk⟩
      rcases extractLatex_value_of_marker r.stdout hmk with ⟨v, hv⟩
      refine ⟨commaFix v, ?_⟩
      rw [processOne, if_pos (by simp [hse]), hv]
    rw [handleGet, processAll_value_of_all outs hval]
    exact ⟨rfl, by rw [applyNormalization_length, List.length_map]⟩

/-- Witness for C7: an erroring batch yields the generic failure, and an
error-free batch with the marker yields the normalized result list. -/
theorem claim_C7_witness :
    handleGet [{ stdout := "x".toList, stderr := "boom".toList }] = .serverError ∧
    handleGet [{ stdout := "LaTeX: ok".toList, stderr := [] }] =
      .ok (applyNormalization
        ([({ stdout := "LaTeX: ok".toList, stderr := [] } : ExecResult)].map extractedOf)) :=
  ⟨(claim_C7_batch_contract _).1 (by decide),
   ((claim_C7_batch_contract _).2 (by decide)).1⟩

/-- C10: for every recognizer output that contains no `LaTeX:` marker,
`extractLatexExpression` does not return a value (in particular not the
`null` its doc comment promises): it throws a `TypeError` from indexing the
`null` match result, and one such marker-less output in the batch makes the
whole request answer with the generic failure response. -/
theorem claim_C10_missing_marker (outs : List ExecResult) (r : ExecResult)
    (hr : r ∈ outs) (hm : containsSub "LaTeX:".toList r.stdout = false) :
    extractLatexExpression r.stdout = .thrown "TypeError" ∧
    handleGet outs = .serverError := by
  have hext : extractLatexExpression r.stdout = .thrown "TypeError" := by
    rw [extractLatexExpression, findAfter_eq_none _ _ hm]
  refine ⟨hext, ?_⟩
  have hnv : ∀ v, processOne r ≠ .value v := by
    intro v
    rw [processOne]
    rcases hse : r.stderr.isEmpty with _ | _
    · simp
    · simp [hext]
  rcases processAll_thrown_of_mem outs r hr hnv with ⟨e, he⟩
  rw [handleGet, he]

/-- Witness for C10 at a concrete marker-less output. -/
theorem claim_C10_witness :
    extractLatexExpression "no marker here".toList = .thrown "TypeError" ∧
    handleGet [{ stdout := "no marker here".toList, stderr := [] }] = .serverError :=
  claim_C10_missing_marker [{ stdout := "no marker here".toList, stderr := [] }]
    { stdout := "no marker here".toList, stderr := [] } (by decide) (by decide)

end HW
